import Mathlib

/-!
D-Bus type-signature parser: verification of the signature module.

The repository ships only the unit test `dbus_signature_unittest.cc` for its
signature module; the implementation (`dbus_signature.h` / `dbus_signature.cc`)
is not part of the tree.  The definitions below therefore model the parser
from the specification's data model and recursive-descent algorithm, with the
concrete type-name constants pinned down by the expected strings in the unit
test (`std::vector<...>`, `std::map<K,V>`, `uint8_t`, `chromeos::Any`, ...).
-/

/-- Modelled from the spec: fixed native name for the boolean type code. -/
def kBooleanTypename : String := "bool"

/-- Modelled from the spec: fixed native name for the byte (8-bit unsigned)
type code; the test `kByteArrayTypename = "std::vector<uint8_t>"` pins it. -/
def kByteTypename : String := "uint8_t"

/-- Modelled from the spec: fixed native name for the double type code. -/
def kDoubleTypename : String := "double"

/-- Modelled from the spec: default object-path native name, used when the
configuration setter was never called. -/
def kDefaultObjectPathTypename : String := "dbus::ObjectPath"

/-- Modelled from the spec: fixed native name for the int16 type code. -/
def kSigned16Typename : String := "int16_t"

/-- Modelled from the spec: fixed native name for the int32 type code. -/
def kSigned32Typename : String := "int32_t"

/-- Modelled from the spec: fixed native name for the int64 type code. -/
def kSigned64Typename : String := "int64_t"

/-- Modelled from the spec: fixed native name for the string type code; the
test `kStringArrayTypename = "std::vector<std::string>"` pins it. -/
def kStringTypename : String := "std::string"

/-- Modelled from the spec: fixed native name for the unix-fd type code. -/
def kUnixFdTypename : String := "dbus::FileDescriptor"

/-- Modelled from the spec: fixed native name for the uint16 type code. -/
def kUnsigned16Typename : String := "uint16_t"

/-- Modelled from the spec: fixed native name for the uint32 type code. -/
def kUnsigned32Typename : String := "uint32_t"

/-- Modelled from the spec: fixed native name for the uint64 type code; the
test `kUnsigned64ArrayTypename = "std::vector<uint64_t>"` pins it. -/
def kUnsigned64Typename : String := "uint64_t"

/-- Modelled from the spec: fixed native name for the variant type code; the
test `kStringVariantDictTypename` pins it to `chromeos::Any`. -/
def kVariantTypename : String := "chromeos::Any"

/-- Modelled from the spec: sequence-of-X notation head; the tests pin it to
`std::vector`. -/
def kArrayTypename : String := "std::vector"

/-- Modelled from the spec: mapping-from-K-to-V notation head; the tests pin
it to `std::map`. -/
def kDictTypename : String := "std::map"

/-- Modelled from the spec: the parser's persistent state is exactly one
configuration field, the native name substituted for the object-path type
code, defaulting to `kDefaultObjectPathTypename` when never configured. -/
structure DbusSignature where
  object_path_typename : String := kDefaultObjectPathTypename

/-- Modelled from the spec: `Configure` / `set_object_path_typename` sets the
object-path native name with no validation of the supplied name. -/
def set_object_path_typename (sig : DbusSignature) (v : String) : DbusSignature :=
  { sig with object_path_typename := v }

/-- Modelled from the spec: the fixed code-to-name table for the thirteen
basic type codes (`b y d o n i x s h q u t v`); only the object-path entry
reads the configuration, every other entry is a fixed literal.  Any other
character is not a basic type code and resolves to `none`. -/
def basicTypename (sig : DbusSignature) (c : Char) : Option String :=
  if c = 'b' then some kBooleanTypename
  else if c = 'y' then some kByteTypename
  else if c = 'd' then some kDoubleTypename
  else if c = 'o' then some sig.object_path_typename
  else if c = 'n' then some kSigned16Typename
  else if c = 'i' then some kSigned32Typename
  else if c = 'x' then some kSigned64Typename
  else if c = 's' then some kStringTypename
  else if c = 'h' then some kUnixFdTypename
  else if c = 'q' then some kUnsigned16Typename
  else if c = 'u' then some kUnsigned32Typename
  else if c = 't' then some kUnsigned64Typename
  else if c = 'v' then some kVariantTypename
  else none

/-- Whether a character is one of the thirteen basic type codes. -/
def isBasicCode (c : Char) : Bool :=
  if c = 'b' then true
  else if c = 'y' then true
  else if c = 'd' then true
  else if c = 'o' then true
  else if c = 'n' then true
  else if c = 'i' then true
  else if c = 'x' then true
  else if c = 's' then true
  else if c = 'h' then true
  else if c = 'q' then true
  else if c = 'u' then true
  else if c = 't' then true
  else if c = 'v' then true
  else false

/-- Finishing step of a dict-entry: a recursively parsed value must be
followed immediately by the closing `}`; a failed value parse, a missing
close brace or any extra member fails the whole dict-entry. -/
def closeDictEntry (keyName : String) :
    Option (String × List Char) → Option (String × List Char)
  | some (valueName, '}' :: r4) =>
    some (kDictTypename ++ "<" ++ keyName ++ "," ++ valueName ++ ">", r4)
  | _ => none

/-- Wrapping of a recursively parsed array element: a failed element parse
fails the array, a successful one is rendered in sequence-of notation. -/
def mkArrayType : Option (String × List Char) → Option (String × List Char)
  | some (elemName, r1) => some (kArrayTypename ++ "<" ++ elemName ++ ">", r1)
  | none => none

/-- Modelled from the spec: the recursive-descent helper
(`GetTypenameForSignature` in the original interface).  It consumes the
leading complete type of the character list and returns its native name
together with the unconsumed remainder, or `none` when no valid type starts
at the cursor.  Following the spec's algorithm step by step:
an empty input fails; a basic code resolves through the table and consumes
one character; `a` followed by `{` parses a dict-entry (one basic key, one
recursively parsed value, then a mandatory `}` via `closeDictEntry`); `a`
followed by anything else recursively parses the element type of a plain
array; a stray `{`, a stray `}` and every unknown code fall through the
table and fail. -/
def getTypenameForSignature (sig : DbusSignature) :
    List Char → Option (String × List Char)
  | [] => none
  | 'a' :: '{' :: k :: r2 =>
    match basicTypename sig k with
    | none => none
    | some keyName => closeDictEntry keyName (getTypenameForSignature sig r2)
  | 'a' :: rest => mkArrayType (getTypenameForSignature sig rest)
  | c :: rest =>
    match basicTypename sig c with
    | none => none
    | some n => some (n, rest)

/-- Modelled from the spec: `Parse` resolves the first complete type at the
start of the signature and discards any unconsumed trailing characters;
`none` models the boolean-false failure outcome. -/
def Parse (sig : DbusSignature) (signature : String) : Option String :=
  (getTypenameForSignature sig signature.data).map Prod.fst

/-- Modelled from the spec: the caller-facing calling convention
`bool Parse(const string and a mutable output slot)` — on success the output
slot receives the resolved name and the call returns true; on failure the
call returns false and the output slot is left unchanged.  Failure is an
ordinary return value, never a non-local transfer (the function is total). -/
def ParseCall (sig : DbusSignature) (signature : String) (output : String) :
    Bool × String :=
  match Parse sig signature with
  | some n => (true, n)
  | none => (false, output)

/-- The abstract grammar of spec section 3: a parsed type is a basic code, an
array of one nested type, or a dict-entry array of one basic key code and one
nested value type. -/
inductive DBusType where
  | basic (c : Char)
  | array (t : DBusType)
  | dict (k : Char) (v : DBusType)

/-- Well-formedness of an abstract type per the spec: basic codes must come
from the table, dict keys must be basic codes, and validity of nested types
propagates. -/
def DBusType.wf : DBusType → Bool
  | .basic c => isBasicCode c
  | .array t => t.wf
  | .dict k v => isBasicCode k && v.wf

/-- The signature string (as a character list) denoting an abstract type:
a basic code is itself, an array prefixes `a`, and a dict-entry array wraps
its key and value in `a{` ... `}`. -/
def DBusType.sigOf : DBusType → List Char
  | .basic c => [c]
  | .array t => 'a' :: t.sigOf
  | .dict k v => 'a' :: '{' :: k :: (v.sigOf ++ ['}'])

/-- The native type name of an abstract type under a configuration, when all
of its codes are well formed. -/
def DBusType.name (sig : DbusSignature) : DBusType → Option String
  | .basic c => basicTypename sig c
  | .array t =>
    match t.name sig with
    | none => none
    | some e => some (kArrayTypename ++ "<" ++ e ++ ">")
  | .dict k v =>
    match basicTypename sig k, v.name sig with
    | some kn, some vn => some (kDictTypename ++ "<" ++ kn ++ "," ++ vn ++ ">")
    | _, _ => none

/-- The recursive-descent helper with an explicit recursion budget: each
recursive call spends one unit.  Used to show that the recursion depth of the
parser is bounded by the length of its input. -/
def getTypenameFuel (sig : DbusSignature) :
    Nat → List Char → Option (String × List Char)
  | 0, _ => none
  | _ + 1, [] => none
  | fuel + 1, 'a' :: '{' :: k :: r2 =>
    match basicTypename sig k with
    | none => none
    | some keyName => closeDictEntry keyName (getTypenameFuel sig fuel r2)
  | fuel + 1, 'a' :: rest => mkArrayType (getTypenameFuel sig fuel rest)
  | _ + 1, c :: rest =>
    match basicTypename sig c with
    | none => none
    | some n => some (n, rest)

/-- The budgeted caller-facing entry point. -/
def ParseFuel (sig : DbusSignature) (fuel : Nat) (signature : String) :
    Option String :=
  (getTypenameFuel sig fuel signature.data).map Prod.fst

/-- The basic-code table resolves a character exactly when `isBasicCode`
holds, for every configuration. -/
theorem basicTypename_isSome (sig : DbusSignature) (c : Char) :
    (basicTypename sig c).isSome = isBasicCode c := by
  unfold basicTypename isBasicCode
  by_cases h1 : c = 'b'
  · rw [if_pos h1, if_pos h1]; rfl
  rw [if_neg h1, if_neg h1]
  by_cases h2 : c = 'y'
  · rw [if_pos h2, if_pos h2]; rfl
  rw [if_neg h2, if_neg h2]
  by_cases h3 : c = 'd'
  · rw [if_pos h3, if_pos h3]; rfl
  rw [if_neg h3, if_neg h3]
  by_cases h4 : c = 'o'
  · rw [if_pos h4, if_pos h4]; rfl
  rw [if_neg h4, if_neg h4]
  by_cases h5 : c = 'n'
  · rw [if_pos h5, if_pos h5]; rfl
  rw [if_neg h5, if_neg h5]
  by_cases h6 : c = 'i'
  · rw [if_pos h6, if_pos h6]; rfl
  rw [if_neg h6, if_neg h6]
  by_cases h7 : c = 'x'
  · rw [if_pos h7, if_pos h7]; rfl
  rw [if_neg h7, if_neg h7]
  by_cases h8 : c = 's'
  · rw [if_pos h8, if_pos h8]; rfl
  rw [if_neg h8, if_neg h8]
  by_cases h9 : c = 'h'
  · rw [if_pos h9, if_pos h9]; rfl
  rw [if_neg h9, if_neg h9]
  by_cases h10 : c = 'q'
  · rw [if_pos h10, if_pos h10]; rfl
  rw [if_neg h10, if_neg h10]
  by_cases h11 : c = 'u'
  · rw [if_pos h11, if_pos h11]; rfl
  rw [if_neg h11, if_neg h11]
  by_cases h12 : c = 't'
  · rw [if_pos h12, if_pos h12]; rfl
  rw [if_neg h12, if_neg h12]
  by_cases h13 : c = 'v'
  · rw [if_pos h13, if_pos h13]; rfl
  rw [if_neg h13, if_neg h13]; rfl

/-- A character resolved by the basic-code table is never one of the three
structural characters `a`, `{`, `}`. -/
theorem basicTypename_not_structural (sig : DbusSignature) (c : Char) (n : String)
    (h : basicTypename sig c = some n) : c ≠ 'a' ∧ c ≠ '{' ∧ c ≠ '}' := by
  refine ⟨?_, ?_, ?_⟩ <;> rintro rfl <;>
    exact Option.noConfusion (show (none : Option String) = some n from h)

/-- Reduction of the parser on a dict-entry opener `a{k`. -/
theorem gts_dict_step (sig : DbusSignature) (k : Char) (r2 : List Char) :
    getTypenameForSignature sig ('a' :: '{' :: k :: r2) =
      match basicTypename sig k with
      | none => none
      | some keyName =>
        closeDictEntry keyName (getTypenameForSignature sig r2) := rfl

/-- A dict-entry whose value parse leaves anything other than `}` at the
cursor fails. -/
theorem closeDictEntry_stuck (keyName vn : String) (c3 : Char) (hc : c3 ≠ '}')
    (r4 : List Char) : closeDictEntry keyName (some (vn, c3 :: r4)) = none := by
  rw [closeDictEntry.eq_def]
  split <;> simp_all

/-- Reduction of the parser on an array opener `a` whose parameter does not
begin a dict-entry. -/
theorem gts_array_step (sig : DbusSignature) (c : Char) (hc : c ≠ '{') (l : List Char) :
    getTypenameForSignature sig ('a' :: c :: l) =
      mkArrayType (getTypenameForSignature sig (c :: l)) := by
  rw [getTypenameForSignature.eq_def]
  split <;> try simp_all
  rename_i hna heq
  exact absurd heq.1.symm hna

/-- Reduction of the parser on a leading character other than `a`: the basic
table decides everything. -/
theorem gts_basic_step (sig : DbusSignature) (c : Char) (hc : c ≠ 'a') (l : List Char) :
    getTypenameForSignature sig (c :: l) =
      match basicTypename sig c with
      | none => none
      | some n => some (n, l) := by
  rw [getTypenameForSignature.eq_def]
  split <;> simp_all

/-- A nameable abstract type denotes a nonempty signature that never starts
with a brace. -/
theorem sigOf_shape (sig : DbusSignature) (t : DBusType) (e : String)
    (h : DBusType.name sig t = some e) :
    ∃ c cs, t.sigOf = c :: cs ∧ c ≠ '{' ∧ c ≠ '}' := by
  cases t with
  | basic c =>
    simp only [DBusType.name] at h
    exact ⟨c, [], rfl, (basicTypename_not_structural sig c e h).2.1,
      (basicTypename_not_structural sig c e h).2.2⟩
  | array t => exact ⟨'a', t.sigOf, rfl, by decide, by decide⟩
  | dict k v => exact ⟨'a', '{' :: k :: (v.sigOf ++ ['}']), rfl, by decide, by decide⟩

/-- Every well-formed abstract type has a native name under every
configuration. -/
theorem name_of_wf (sig : DbusSignature) (t : DBusType) (h : t.wf = true) :
    ∃ n, DBusType.name sig t = some n := by
  induction t with
  | basic c =>
    simp only [DBusType.wf] at h
    have := basicTypename_isSome sig c
    rw [h] at this
    obtain ⟨n, hn⟩ := Option.isSome_iff_exists.mp this
    exact ⟨n, hn⟩
  | array t ih =>
    simp only [DBusType.wf] at h
    obtain ⟨e, he⟩ := ih h
    exact ⟨kArrayTypename ++ "<" ++ e ++ ">", by simp [DBusType.name, he]⟩
  | dict k v ih =>
    simp only [DBusType.wf, Bool.and_eq_true] at h
    obtain ⟨vn, hvn⟩ := ih h.2
    have := basicTypename_isSome sig k
    rw [h.1] at this
    obtain ⟨kn, hkn⟩ := Option.isSome_iff_exists.mp this
    exact ⟨kDictTypename ++ "<" ++ kn ++ "," ++ vn ++ ">", by simp [DBusType.name, hkn, hvn]⟩

/-- An abstract type with a native name is well formed. -/
theorem wf_of_name (sig : DbusSignature) (t : DBusType) (n : String)
    (h : DBusType.name sig t = some n) : t.wf = true := by
  induction t generalizing n with
  | basic c =>
    simp only [DBusType.name] at h
    simp only [DBusType.wf]
    rw [← basicTypename_isSome sig c, h]
    rfl
  | array t ih =>
    simp only [DBusType.name] at h
    simp only [DBusType.wf]
    cases ht : DBusType.name sig t with
    | none => rw [ht] at h; exact Option.noConfusion h
    | some e => exact ih e ht
  | dict k v ih =>
    simp only [DBusType.name] at h
    simp only [DBusType.wf, Bool.and_eq_true]
    cases hk : basicTypename sig k with
    | none => rw [hk] at h; exact Option.noConfusion h
    | some kn =>
      cases hv : DBusType.name sig v with
      | none => rw [hk, hv] at h; exact Option.noConfusion h
      | some vn =>
        refine ⟨?_, ih vn hv⟩
        rw [← basicTypename_isSome sig k, hk]
        rfl

/-- Completeness of the recursive-descent helper: for every nameable abstract
type, the parser consumes exactly that type's signature characters and
returns its name, whatever follows. -/
theorem getTypename_complete (sig : DbusSignature) (t : DBusType) :
    ∀ (n : String), DBusType.name sig t = some n →
    ∀ r : List Char, getTypenameForSignature sig (t.sigOf ++ r) = some (n, r) := by
  induction t with
  | basic c =>
    intro n h r
    simp only [DBusType.name] at h
    simp only [DBusType.sigOf, List.singleton_append]
    rw [gts_basic_step sig c (basicTypename_not_structural sig c n h).1 r, h]
  | array t ih =>
    intro n h r
    simp only [DBusType.name] at h
    cases ht : DBusType.name sig t with
    | none => rw [ht] at h; exact Option.noConfusion h
    | some e =>
      rw [ht] at h
      injection h with hn
      obtain ⟨c, cs, hsig, hc1, _⟩ := sigOf_shape sig t e ht
      have hrec := ih e ht r
      simp only [DBusType.sigOf, List.cons_append]
      rw [hsig] at hrec ⊢
      simp only [List.cons_append] at hrec ⊢
      rw [gts_array_step sig c hc1 (cs ++ r), hrec]
      subst hn
      rfl
  | dict k v ih =>
    intro n h r
    simp only [DBusType.name] at h
    cases hk : basicTypename sig k with
    | none => rw [hk] at h; exact Option.noConfusion h
    | some kn =>
      cases hv : DBusType.name sig v with
      | none => rw [hk, hv] at h; exact Option.noConfusion h
      | some vn =>
        rw [hk, hv] at h
        injection h with hn
        have hrec := ih vn hv ('}' :: r)
        simp only [DBusType.sigOf, List.cons_append, List.append_assoc,
          List.singleton_append, List.nil_append]
        rw [gts_dict_step, hk, hrec]
        subst hn
        rfl

/-- Soundness bounded by a recursion budget: whenever the parser returns a
name and a remainder, the consumed prefix is the signature of some nameable
abstract type. -/
theorem getTypename_sound_bounded (sig : DbusSignature) :
    ∀ (N : ℕ) (l : List Char), l.length ≤ N → ∀ (n : String) (r : List Char),
      getTypenameForSignature sig l = some (n, r) →
      ∃ t : DBusType, DBusType.name sig t = some n ∧ l = t.sigOf ++ r := by
  intro N
  induction N with
  | zero =>
    intro l hl n r h
    rw [List.length_eq_zero.mp (Nat.le_zero.mp hl)] at h
    exact Option.noConfusion h
  | succ N ih =>
    intro l hl n r h
    cases l with
    | nil => exact Option.noConfusion h
    | cons c rest =>
      by_cases hca : c = 'a'
      · subst hca
        cases rest with
        | nil =>
          rw [show getTypenameForSignature sig ['a'] = none from rfl] at h
          exact Option.noConfusion h
        | cons c2 rest2 =>
          by_cases hcb : c2 = '{'
          · subst hcb
            cases rest2 with
            | nil =>
              rw [show getTypenameForSignature sig ['a', '{'] = none from rfl] at h
              exact Option.noConfusion h
            | cons k r2 =>
              rw [gts_dict_step] at h
              cases hk : basicTypename sig k with
              | none => rw [hk] at h; exact Option.noConfusion h
              | some kn =>
                rw [hk] at h
                have hd : closeDictEntry kn (getTypenameForSignature sig r2)
                    = some (n, r) := h
                cases hrec : getTypenameForSignature sig r2 with
                | none =>
                  rw [hrec] at hd
                  exact Option.noConfusion hd
                | some p =>
                  rw [hrec] at hd
                  obtain ⟨vn, r3⟩ := p
                  have hr2 : r2.length ≤ N := by
                    simp only [List.length_cons] at hl
                    omega
                  obtain ⟨tv, hvname, hvshape⟩ := ih r2 hr2 vn r3 hrec
                  cases r3 with
                  | nil => exact Option.noConfusion hd
                  | cons c3 r4 =>
                    by_cases hcc : c3 = '}'
                    · subst hcc
                      have h2 : some (kDictTypename ++ "<" ++ kn ++ "," ++ vn
                          ++ ">", r4) = some (n, r) := hd
                      injection h2 with h2
                      injection h2 with hn hr
                      refine ⟨DBusType.dict k tv, ?_, ?_⟩
                      · simp [DBusType.name, hk, hvname, hn]
                      · subst hr
                        simp [DBusType.sigOf, hvshape]
                    · rw [closeDictEntry_stuck kn vn c3 hcc r4] at hd
                      exact Option.noConfusion hd
          · rw [gts_array_step sig c2 hcb rest2] at h
            cases hrec : getTypenameForSignature sig (c2 :: rest2) with
            | none => rw [hrec] at h; exact Option.noConfusion h
            | some p =>
              rw [hrec] at h
              obtain ⟨e, r1⟩ := p
              have hlen : (c2 :: rest2).length ≤ N := by
                simp only [List.length_cons] at hl ⊢
                omega
              obtain ⟨te, hename, heshape⟩ := ih (c2 :: rest2) hlen e r1 hrec
              injection h with h
              injection h with hn hr
              refine ⟨DBusType.array te, ?_, ?_⟩
              · simp [DBusType.name, hename, hn]
              · subst hr
                simp [DBusType.sigOf, heshape]
      · rw [gts_basic_step sig c hca rest] at h
        cases hb : basicTypename sig c with
        | none => rw [hb] at h; exact Option.noConfusion h
        | some n0 =>
          rw [hb] at h
          injection h with h
          injection h with hn hr
          refine ⟨DBusType.basic c, ?_, ?_⟩
          · simp only [DBusType.name]
            rw [hb, hn]
          · subst hr
            simp [DBusType.sigOf]

/-- Soundness of the recursive-descent helper. -/
theorem getTypename_sound (sig : DbusSignature) (l : List Char) (n : String)
    (r : List Char) (h : getTypenameForSignature sig l = some (n, r)) :
    ∃ t : DBusType, DBusType.name sig t = some n ∧ l = t.sigOf ++ r :=
  getTypename_sound_bounded sig l.length l le_rfl n r h

/-- Budgeted reduction on a dict-entry opener. -/
theorem fuel_dict_step (sig : DbusSignature) (fuel : Nat) (k : Char)
    (r2 : List Char) :
    getTypenameFuel sig (fuel + 1) ('a' :: '{' :: k :: r2) =
      match basicTypename sig k with
      | none => none
      | some keyName => closeDictEntry keyName (getTypenameFuel sig fuel r2) := rfl

/-- Budgeted reduction on an array opener whose parameter does not begin a
dict-entry. -/
theorem fuel_array_step (sig : DbusSignature) (fuel : Nat) (c : Char)
    (hc : c ≠ '{') (l : List Char) :
    getTypenameFuel sig (fuel + 1) ('a' :: c :: l) =
      mkArrayType (getTypenameFuel sig fuel (c :: l)) := by
  rw [getTypenameFuel.eq_def]
  split <;> try simp_all
  rename_i hx hna heq
  exact absurd heq.1.symm hx

/-- Budgeted reduction on a leading character other than `a`. -/
theorem fuel_basic_step (sig : DbusSignature) (fuel : Nat) (c : Char)
    (hc : c ≠ 'a') (l : List Char) :
    getTypenameFuel sig (fuel + 1) (c :: l) =
      match basicTypename sig c with
      | none => none
      | some n => some (n, l) := by
  rw [getTypenameFuel.eq_def]
  split <;> simp_all

/-- A recursion budget of the input length suffices: the budgeted parser
agrees with the parser everywhere the budget covers the input, so the
recursion depth of `getTypenameForSignature` is bounded by the length of its
input. -/
theorem getTypenameFuel_spec (sig : DbusSignature) :
    ∀ (fuel : Nat) (l : List Char), l.length ≤ fuel →
      getTypenameFuel sig fuel l = getTypenameForSignature sig l := by
  intro fuel
  induction fuel with
  | zero =>
    intro l hl
    rw [List.length_eq_zero.mp (Nat.le_zero.mp hl)]
    rfl
  | succ N ih =>
    intro l hl
    cases l with
    | nil => rfl
    | cons c rest =>
      by_cases hca : c = 'a'
      · subst hca
        cases rest with
        | nil =>
          cases N <;> rfl
        | cons c2 rest2 =>
          by_cases hcb : c2 = '{'
          · subst hcb
            cases rest2 with
            | nil => cases N <;> rfl
            | cons k r2 =>
              rw [fuel_dict_step, gts_dict_step]
              cases hk : basicTypename sig k with
              | none => rfl
              | some kn =>
                have hr2 : r2.length ≤ N := by
                  simp only [List.length_cons] at hl
                  omega
                exact congrArg (closeDictEntry kn) (ih r2 hr2)
          · rw [fuel_array_step sig N c2 hcb rest2, gts_array_step sig c2 hcb rest2]
            have hlen : (c2 :: rest2).length ≤ N := by
              simp only [List.length_cons] at hl ⊢
              omega
            exact congrArg mkArrayType (ih (c2 :: rest2) hlen)
      · rw [fuel_basic_step sig N c hca rest, gts_basic_step sig c hca rest]

example : Parse {} "" = none := by decide
example : Parse {} "a" = none := by decide
example : Parse {} "a\x7b\x7d" = none := by decide
example : Parse {} "a\x7bs\x7d" = none := by decide
example : Parse {} "a\x7bsa\x7bi\x7du\x7d" = none := by decide
example : Parse {} "a\x7bs\x7bi\x7d\x7d" = none := by decide
example : Parse {} "a\x7bs" = none := by decide
example : Parse {} "a\x7ba\x7bu\x7d" = none := by decide
example : Parse {} "a\x7di\x7b" = none := by decide
example : Parse {} "al" = none := by decide
example : Parse {} "a\x7bsa\x7di" = none := by decide
example : Parse {} "ab" = some "std::vector<bool>" := by decide
example : Parse {} "aay" = some "std::vector<std::vector<uint8_t>>" := by decide
example : Parse {} "o" = some "dbus::ObjectPath" := by decide
example : Parse (set_object_path_typename {} "ObjectPathType") "a\x7boa\x7bsa\x7bsv\x7d\x7d\x7d"
    = some "std::map<ObjectPathType,std::map<std::string,std::map<std::string,chromeos::Any>>>" := by
  decide
example : Parse {} "a\x7bsv\x7dNoneOfThisParses" = some "std::map<std::string,chromeos::Any>" := by
  decide

/-- `Parse` on the exact signature string of a nameable abstract type yields
that type's native name. -/
theorem Parse_mk_of_name (sig : DbusSignature) (t : DBusType) (n : String)
    (h : DBusType.name sig t = some n) : Parse sig (String.mk t.sigOf) = some n := by
  have hc := getTypename_complete sig t n h []
  rw [List.append_nil] at hc
  unfold Parse
  rw [show (String.mk t.sigOf).data = t.sigOf from rfl, hc]
  rfl

/-- `Parse` on the signature string of a nameable abstract type followed by
arbitrary trailing characters still yields that type's native name. -/
theorem Parse_mk_append_of_name (sig : DbusSignature) (t : DBusType) (n : String)
    (h : DBusType.name sig t = some n) (garbage : List Char) :
    Parse sig (String.mk (t.sigOf ++ garbage)) = some n := by
  have hc := getTypename_complete sig t n h garbage
  unfold Parse
  rw [show (String.mk (t.sigOf ++ garbage)).data = t.sigOf ++ garbage from rfl, hc]
  rfl

/-- C1: for every string that does not begin with the signature of any
well-formed type of the section-3 grammar, `Parse` fails, and in particular
each of the eleven catalogued failure patterns is rejected. -/
theorem parse_rejects_invalid (sig : DbusSignature) (s : String)
    (h : ∀ (t : DBusType) (r : List Char), DBusType.wf t = true →
      s.data ≠ t.sigOf ++ r) :
    Parse sig s = none ∧
    Parse sig "" = none ∧
    Parse sig "a" = none ∧
    Parse sig "a\x7b\x7d" = none ∧
    Parse sig "a\x7bs\x7d" = none ∧
    Parse sig "a\x7bsa\x7bi\x7du\x7d" = none ∧
    Parse sig "a\x7bs\x7bi\x7d\x7d" = none ∧
    Parse sig "a\x7bs" = none ∧
    Parse sig "a\x7ba\x7bu\x7d" = none ∧
    Parse sig "a\x7di\x7b" = none ∧
    Parse sig "al" = none ∧
    Parse sig "a\x7bsa\x7di" = none := by
  refine ⟨?_, rfl, rfl, rfl, rfl, rfl, rfl, rfl, rfl, rfl, rfl, rfl⟩
  cases hp : getTypenameForSignature sig s.data with
  | none => simp [Parse, hp]
  | some p =>
    obtain ⟨n, r⟩ := p
    obtain ⟨t, hname, hshape⟩ := getTypename_sound sig s.data n r hp
    exact absurd hshape (h t r (wf_of_name sig t n hname))

/-- Witness for C1 at the concrete invalid input consisting of one stray
close brace. -/
theorem parse_rejects_invalid_witness : Parse {} "\x7d" = none := by
  have h : ∀ (t : DBusType) (r : List Char), DBusType.wf t = true →
      ("\x7d" : String).data ≠ t.sigOf ++ r := by
    intro t r hwf hne
    rw [show ("\x7d" : String).data = ['}'] from rfl] at hne
    cases t with
    | basic c =>
      simp only [DBusType.sigOf, List.singleton_append] at hne
      injection hne with h1 h2
      subst h1
      exact absurd hwf (by decide)
    | array t =>
      simp only [DBusType.sigOf, List.cons_append] at hne
      injection hne with h1 h2
      exact absurd h1 (by decide)
    | dict k v =>
      simp only [DBusType.sigOf, List.cons_append] at hne
      injection hne with h1 h2
      exact absurd h1 (by decide)
  exact (parse_rejects_invalid {} "\x7d" h).1

/-- C2: every single-character basic type code parses to exactly the fixed
native name of its table entry, under every configuration; the object-path
code yields exactly the configured name — the name last passed to the setter,
or the fixed default when the setter was never called. -/
theorem parse_basic_codes (sig : DbusSignature) :
    Parse sig "b" = some kBooleanTypename ∧
    Parse sig "y" = some kByteTypename ∧
    Parse sig "d" = some kDoubleTypename ∧
    Parse sig "n" = some kSigned16Typename ∧
    Parse sig "i" = some kSigned32Typename ∧
    Parse sig "x" = some kSigned64Typename ∧
    Parse sig "s" = some kStringTypename ∧
    Parse sig "h" = some kUnixFdTypename ∧
    Parse sig "q" = some kUnsigned16Typename ∧
    Parse sig "u" = some kUnsigned32Typename ∧
    Parse sig "t" = some kUnsigned64Typename ∧
    Parse sig "v" = some kVariantTypename ∧
    Parse sig "o" = some sig.object_path_typename ∧
    (∀ s : String, Parse (set_object_path_typename sig s) "o" = some s) ∧
    Parse {} "o" = some kDefaultObjectPathTypename :=
  ⟨rfl, rfl, rfl, rfl, rfl, rfl, rfl, rfl, rfl, rfl, rfl, rfl, rfl,
    fun _ => rfl, rfl⟩

/-- C3: for every basic key code and every valid value signature, the
dict-entry signature built from them parses to the mapping notation applied
to the very names the key and the value parse to on their own, under the
same configuration. -/
theorem parse_dict_compositional (sig : DbusSignature) (k : Char) (v : DBusType)
    (hk : isBasicCode k = true) (hv : DBusType.wf v = true) :
    ∃ kn vn,
      Parse sig (String.mk [k]) = some kn ∧
      Parse sig (String.mk v.sigOf) = some vn ∧
      Parse sig (String.mk ('a' :: '{' :: k :: (v.sigOf ++ ['}']))) =
        some (kDictTypename ++ "<" ++ kn ++ "," ++ vn ++ ">") := by
  have hks : (basicTypename sig k).isSome := by
    rw [basicTypename_isSome]
    exact hk
  obtain ⟨kn, hkn⟩ := Option.isSome_iff_exists.mp hks
  obtain ⟨vn, hvn⟩ := name_of_wf sig v hv
  refine ⟨kn, vn, ?_, ?_, ?_⟩
  · exact Parse_mk_of_name sig (DBusType.basic k) kn hkn
  · exact Parse_mk_of_name sig v vn hvn
  · exact Parse_mk_of_name sig (DBusType.dict k v)
      (kDictTypename ++ "<" ++ kn ++ "," ++ vn ++ ">")
      (by simp [DBusType.name, hkn, hvn])

/-- Witness for C3 at the key code `s` and value signature `v`. -/
theorem parse_dict_compositional_witness :
    ∃ kn vn,
      Parse {} (String.mk ['s']) = some kn ∧
      Parse {} (String.mk (DBusType.basic 'v').sigOf) = some vn ∧
      Parse {} (String.mk ('a' :: '{' :: 's' ::
        ((DBusType.basic 'v').sigOf ++ ['}']))) =
        some (kDictTypename ++ "<" ++ kn ++ "," ++ vn ++ ">") :=
  parse_dict_compositional {} 's' (DBusType.basic 'v') (by decide) (by decide)

/-- C4: prefixing the array marker to any valid signature parses to the
sequence notation applied to the very name that signature parses to on its
own; nesting works because the element may itself be an array. -/
theorem parse_array_compositional (sig : DbusSignature) (x : DBusType)
    (hx : DBusType.wf x = true) :
    (∃ xn,
      Parse sig (String.mk x.sigOf) = some xn ∧
      Parse sig (String.mk ('a' :: x.sigOf)) =
        some (kArrayTypename ++ "<" ++ xn ++ ">")) ∧
    Parse sig "aay" = some "std::vector<std::vector<uint8_t>>" := by
  obtain ⟨xn, hxn⟩ := name_of_wf sig x hx
  refine ⟨⟨xn, ?_, ?_⟩, rfl⟩
  · exact Parse_mk_of_name sig x xn hxn
  · exact Parse_mk_of_name sig (DBusType.array x)
      (kArrayTypename ++ "<" ++ xn ++ ">") (by simp [DBusType.name, hxn])

/-- Witness for C4 at the nested array signature `ay`. -/
theorem parse_array_compositional_witness :
    (∃ xn,
      Parse {} (String.mk (DBusType.array (DBusType.basic 'y')).sigOf) = some xn ∧
      Parse {} (String.mk ('a' :: (DBusType.array (DBusType.basic 'y')).sigOf)) =
        some (kArrayTypename ++ "<" ++ xn ++ ">")) ∧
    Parse {} "aay" = some "std::vector<std::vector<uint8_t>>" :=
  parse_array_compositional {} (DBusType.array (DBusType.basic 'y')) (by decide)

/-- C5: a valid, complete leading signature followed by arbitrary trailing
characters parses successfully to exactly the name of the leading signature
alone; in particular the catalogued trailing-garbage test case. -/
theorem parse_prefix_policy (sig : DbusSignature) (x : DBusType)
    (hx : DBusType.wf x = true) (garbage : List Char) :
    Parse sig (String.mk (x.sigOf ++ garbage)) = Parse sig (String.mk x.sigOf) ∧
    Parse sig (String.mk x.sigOf) ≠ none ∧
    Parse sig "a\x7bsv\x7dNoneOfThisParses" = Parse sig "a\x7bsv\x7d" := by
  obtain ⟨xn, hxn⟩ := name_of_wf sig x hx
  refine ⟨?_, ?_, rfl⟩
  · rw [Parse_mk_append_of_name sig x xn hxn garbage,
      Parse_mk_of_name sig x xn hxn]
  · rw [Parse_mk_of_name sig x xn hxn]
    exact Option.noConfusion

/-- Witness for C5: the string-to-variant dict followed by garbage. -/
theorem parse_prefix_policy_witness :
    Parse {} (String.mk ((DBusType.dict 's' (DBusType.basic 'v')).sigOf
        ++ ['Z'])) =
      Parse {} (String.mk (DBusType.dict 's' (DBusType.basic 'v')).sigOf) ∧
    Parse {} (String.mk (DBusType.dict 's' (DBusType.basic 'v')).sigOf) ≠ none ∧
    Parse {} "a\x7bsv\x7dNoneOfThisParses" = Parse {} "a\x7bsv\x7d" :=
  parse_prefix_policy {} (DBusType.dict 's' (DBusType.basic 'v'))
    (by decide) ['Z']

/-- C6: on every failing input the call returns false, leaves the
caller-supplied output slot exactly as it was, and signals failure only
through its boolean component — the model is a total function, so no
exception or other non-local transfer exists. -/
theorem parse_failure_is_local (sig : DbusSignature) (s : String)
    (output : String) (h : Parse sig s = none) :
    ParseCall sig s output = (false, output) ∧
    (ParseCall sig s output).1 = false ∧
    (ParseCall sig s output).2 = output := by
  simp [ParseCall, h]

/-- Witness for C6 at the unknown-code input `al`. -/
theorem parse_failure_is_local_witness :
    ParseCall {} "al" "untouched" = (false, "untouched") ∧
    (ParseCall {} "al" "untouched").1 = false ∧
    (ParseCall {} "al" "untouched").2 = "untouched" :=
  parse_failure_is_local {} "al" "untouched" rfl

/-- C7: parsing terminates on every input — the model is a total function —
and a recursion budget equal to the input length always suffices: the
budgeted parser agrees with the parser whenever the budget is at least the
length of the input. -/
theorem parse_depth_bounded (sig : DbusSignature) (s : String) (fuel : Nat)
    (h : s.length ≤ fuel) : ParseFuel sig fuel s = Parse sig s := by
  unfold ParseFuel Parse
  rw [getTypenameFuel_spec sig fuel s.data h]

/-- Witness for C7 at the trailing-garbage input with its exact length as
the budget. -/
theorem parse_depth_bounded_witness :
    ParseFuel {} 21 "a\x7bsv\x7dNoneOfThisParses" =
      Parse {} "a\x7bsv\x7dNoneOfThisParses" :=
  parse_depth_bounded {} "a\x7bsv\x7dNoneOfThisParses" 21 (by decide)

/-- C8: the rendered notations are the fixed literal strings: arrays render
as the `std::vector<...>` wrapping of the element name, dicts as the
`std::map<...>` wrapping of key and value names joined by a single comma
without spaces, the variant code renders as `chromeos::Any`, and nested
containers nest those literals. -/
theorem typename_literal_forms (sig : DbusSignature) :
    Parse sig "v" = some "chromeos::Any" ∧
    Parse sig "aay" = some "std::vector<std::vector<uint8_t>>" ∧
    kArrayTypename = "std::vector" ∧
    kDictTypename = "std::map" ∧
    (∀ (x : DBusType) (xn : String), DBusType.wf x = true →
      Parse sig (String.mk x.sigOf) = some xn →
      Parse sig (String.mk ('a' :: x.sigOf)) =
        some ("std::vector<" ++ xn ++ ">")) ∧
    (∀ (k : Char) (v : DBusType) (kn vn : String), isBasicCode k = true →
      DBusType.wf v = true →
      Parse sig (String.mk [k]) = some kn →
      Parse sig (String.mk v.sigOf) = some vn →
      Parse sig (String.mk ('a' :: '{' :: k :: (v.sigOf ++ ['}']))) =
        some ("std::map<" ++ kn ++ "," ++ vn ++ ">")) := by
  refine ⟨rfl, rfl, rfl, rfl, ?_, ?_⟩
  · intro x xn hx hparse
    obtain ⟨xn2, hxn2⟩ := name_of_wf sig x hx
    have hpx := Parse_mk_of_name sig x xn2 hxn2
    rw [hpx] at hparse
    injection hparse with he
    have h3 := Parse_mk_of_name sig (DBusType.array x)
      (kArrayTypename ++ "<" ++ xn2 ++ ">") (by simp [DBusType.name, hxn2])
    rw [he] at h3
    exact h3
  · intro k v kn vn hk hv hkparse hvparse
    have hks : (basicTypename sig k).isSome := by
      rw [basicTypename_isSome]
      exact hk
    obtain ⟨kn2, hkn2⟩ := Option.isSome_iff_exists.mp hks
    obtain ⟨vn2, hvn2⟩ := name_of_wf sig v hv
    have h1 : Parse sig (String.mk [k]) = some kn2 :=
      Parse_mk_of_name sig (DBusType.basic k) kn2 hkn2
    have h2 := Parse_mk_of_name sig v vn2 hvn2
    rw [h1] at hkparse
    rw [h2] at hvparse
    injection hkparse with he1
    injection hvparse with he2
    have h3 := Parse_mk_of_name sig (DBusType.dict k v)
      (kDictTypename ++ "<" ++ kn2 ++ "," ++ vn2 ++ ">")
      (by simp [DBusType.name, hkn2, hvn2])
    rw [he1, he2] at h3
    exact h3

/-- Witness for C8 at element `y` and key-value pair `s`, `v`. -/
theorem typename_literal_forms_witness :
    Parse {} (String.mk ('a' :: (DBusType.basic 'y').sigOf)) =
      some ("std::vector<" ++ "uint8_t" ++ ">") ∧
    Parse {} (String.mk ('a' :: '{' :: 's' ::
        ((DBusType.basic 'v').sigOf ++ ['}']))) =
      some ("std::map<" ++ "std::string" ++ "," ++ "chromeos::Any" ++ ">") :=
  ⟨(typename_literal_forms {}).2.2.2.2.1 (DBusType.basic 'y') "uint8_t"
      (by decide) rfl,
    (typename_literal_forms {}).2.2.2.2.2 's' (DBusType.basic 'v')
      "std::string" "chromeos::Any" (by decide) (by decide) rfl rfl⟩

/-- C9: the object-path code is accepted as a dict-entry key, rendering the
key position with the configured object-path name, both in the simple
catalogued dict and as the outermost container of the deeply nested blob
signature; in general any dict with key code `o` and well-formed value
renders its key as the configured name. -/
theorem object_path_dict_key :
    Parse (set_object_path_typename {} "ObjectPathType") "a\x7bos\x7d" =
      some "std::map<ObjectPathType,std::string>" ∧
    Parse (set_object_path_typename {} "ObjectPathType")
        "a\x7boa\x7bsa\x7bsv\x7d\x7d\x7d" =
      some ("std::map<ObjectPathType,std::map<std::string,std::map"
        ++ "<std::string,chromeos::Any>>>") ∧
    (∀ (sig : DbusSignature) (v : DBusType) (vn : String),
      DBusType.wf v = true →
      Parse sig (String.mk v.sigOf) = some vn →
      Parse sig (String.mk ('a' :: '{' :: 'o' :: (v.sigOf ++ ['}']))) =
        some ("std::map<" ++ sig.object_path_typename ++ "," ++ vn ++ ">")) := by
  refine ⟨by decide, by decide, ?_⟩
  intro sig v vn hv hparse
  obtain ⟨vn2, hvn2⟩ := name_of_wf sig v hv
  have h2 := Parse_mk_of_name sig v vn2 hvn2
  rw [h2] at hparse
  injection hparse with he
  have h3 := Parse_mk_of_name sig (DBusType.dict 'o' v)
    (kDictTypename ++ "<" ++ sig.object_path_typename ++ "," ++ vn2 ++ ">")
    (by simp [DBusType.name, basicTypename, hvn2])
  rw [he] at h3
  exact h3

/-- Witness for C9 at configuration `X` and value signature `s`. -/
theorem object_path_dict_key_witness :
    Parse (set_object_path_typename {} "X")
        (String.mk ('a' :: '{' :: 'o' :: ((DBusType.basic 's').sigOf ++ ['}']))) =
      some ("std::map<" ++ "X" ++ "," ++ "std::string" ++ ">") :=
  object_path_dict_key.2.2 (set_object_path_typename {} "X")
    (DBusType.basic 's') "std::string" (by decide) rfl

/-- C10: an array marker with no element type inside a dict-entry fails the
whole parse, and no trailing characters after the closing brace can rescue
it: every extension of the malformed prefix `a{sa}` is rejected. -/
theorem malformed_dict_not_rescued (sig : DbusSignature) (rest : List Char) :
    Parse sig "a\x7bsa\x7di" = none ∧
    Parse sig (String.mk ('a' :: '{' :: 's' :: 'a' :: '}' :: rest)) = none :=
  ⟨rfl, rfl⟩
